import Mathlib

/-!
Verification of the section-integrator core of the `structuralcodes`
repository against its natural-language specification.

The Python sources are embedded shallowly over the rationals (the claims
under scrutiny involve only exact arithmetic): pure functions become Lean
functions, fallible code returns `Except`, and the handful of collaborators
that live outside `src/` (the geometry engine, the constitutive-law
`__marin__` capability, real-valued `atan2`/`sqrt`/`cos`/`sin`) are
modelled from the spec on exactly the inputs the claims exercise, with an
explicit `modelGap` error outside that domain so that no theorem can rely
on unmodelled behaviour.
-/

/-- Embedding of `_coeff` from `_marin_integration.py`:
`math.comb(j + k, j) * math.comb(m + n - j - k, n - k)`.
`Nat.choose` agrees with `math.comb` on the in-range arguments
(`j ≤ m`, `k ≤ n`) for which the function is ever called. -/
def _coeff (m n j k : ℕ) : ℕ :=
  Nat.choose (j + k) j * Nat.choose (m + n - j - k) (n - k)

/-- The contribution of one polygon edge `p → q` in `marin_integration`,
with `p = (yᵢ, zᵢ)` and `q = (yᵢ₊₁, zᵢ₊₁)`:
the double sum `ssj` of the source, times the edge cross term
`yᵢ·zᵢ₊₁ − yᵢ₊₁·zᵢ`. -/
def edgeTerm {K : Type} [Field K] (m n : ℕ) (p q : K × K) : K :=
  (∑ j ∈ Finset.range (m + 1),
      (∑ k ∈ Finset.range (n + 1),
        (_coeff m n j k : K) * p.2 ^ (n - k) * q.2 ^ k)
      * p.1 ^ (m - j) * q.1 ^ j)
  * (p.1 * q.2 - q.1 * p.2)

/-- The accumulation loop of `marin_integration`: the sum of `edgeTerm`
over consecutive vertex pairs, mirroring `for i in range(len(y) - 1)`
(no wrapping edge). -/
def marinSum {K : Type} [Field K] (m n : ℕ) : List (K × K) → K
  | [] => 0
  | [_] => 0
  | p :: q :: rest => edgeTerm m n p q + marinSum m n (q :: rest)

/-- Embedding of `marin_integration(y, z, m, n)` from
`_marin_integration.py`: the edge sum over consecutive vertex pairs,
divided by `math.comb(m + n, n) * (m + n + 1) * (m + n + 2)`. -/
def marin_integration {K : Type} [Field K] (y z : List K) (m n : ℕ) : K :=
  marinSum m n (y.zip z)
    / ((Nat.choose (m + n) n * (m + n + 1) * (m + n + 2) : ℕ) : K)

/-- Consecutive vertex pairs of a ring, including the wrapping edge from
the last vertex back to the first. -/
def wrapPairs {K : Type} (l : List (K × K)) : List ((K × K) × (K × K)) :=
  match l with
  | [] => []
  | p :: ps => (p :: ps).zip (ps ++ [p])

/-- Modelled from the spec (claim C2 wording): the Marin edge-summation
taken over all consecutive vertex pairs including the wrapping edge from
the last vertex back to the first, divided by
`binom(m+n, n)·(m+n+1)·(m+n+2)`.  To be compared with the source's
`marin_integration`, which does not wrap. -/
def marinFormulaWrap {K : Type} [Field K] (y z : List K) (m n : ℕ) : K :=
  ((wrapPairs (y.zip z)).map (fun pq => edgeTerm m n pq.1 pq.2)).sum
    / ((Nat.choose (m + n) n * (m + n + 1) * (m + n + 2) : ℕ) : K)

/-- One entry of the `prepared_input` list built by
`MarinIntegrator.prepare_input`: a tag (0 = surface zone, 1 = point
zone), the `y` coordinates, the `z` coordinates, and the stress
coefficients (for tag 1: the point forces). -/
abbrev PreparedPart (K : Type) := ℕ × List K × List K × List K

/-- One iteration of the accumulation loop in `MarinIntegrator.integrate`:
tag 0 adds the polynomial-zone contribution through `marin_integration`,
tag 1 adds the reinforcement contribution, any other tag adds nothing
(the source's `if`/`elif` falls through). -/
def addPart {K : Type} [Field K] (acc : K × K × K) (part : PreparedPart K) :
    K × K × K :=
  match acc, part with
  | (N, Mx, My), (i, y, z, stress_coeff) =>
    if i = 0 then
      let n := stress_coeff.length
      let area_moments_N := (List.range n).map fun k => marin_integration y z 0 k
      let area_moments_Mx := (List.range n).map fun k => marin_integration y z 0 (k + 1)
      let area_moments_My := (List.range n).map fun k => marin_integration y z 1 k
      (N + (List.zipWith (· * ·) stress_coeff area_moments_N).sum,
       Mx + (List.zipWith (· * ·) stress_coeff area_moments_Mx).sum,
       My + (List.zipWith (· * ·) stress_coeff area_moments_My).sum)
    else if i = 1 then
      (N + stress_coeff.sum,
       Mx + (List.zipWith (· * ·) stress_coeff z).sum,
       My + (List.zipWith (· * ·) stress_coeff y).sum)
    else (N, Mx, My)

/-- The accumulated `(N, Mx, My)` of `MarinIntegrator.integrate` before
the rotation back to the section frame. -/
def accumulate {K : Type} [Field K] (parts : List (PreparedPart K)) : K × K × K :=
  parts.foldl addPart (0, 0, 0)

/-- Embedding of `MarinIntegrator.integrate`.  The source receives the
rotation angle and forms `T = [[cos angle, sin angle], [-sin angle,
cos angle]]`; the embedding receives the pair `(cos angle, sin angle)`
directly as `cosA`, `sinA` and performs the same matrix product
`T @ [[Mx], [My]]`. -/
def integrate {K : Type} [Field K] (cosA sinA : K)
    (prepared_input : List (PreparedPart K)) : K × K × K :=
  let acc := accumulate prepared_input
  let T : Matrix (Fin 2) (Fin 2) K := Matrix.of ![![cosA, sinA], ![-sinA, cosA]]
  let M := T.mulVec ![acc.2.1, acc.2.2]
  (acc.1, M 0, M 1)

/-- Modelled from the spec (§4.3, ConstitutiveEvaluator): a material
exposes `__marin__` (here `marinZones`), mapping the rotated strain pair
to an ordered sequence of (strain-interval, coefficient-vector) zones,
and `get_stress` (here `getStress`), mapping a strain to a scalar
stress.  The concrete constitutive laws live outside `src/`. -/
structure MaterialModel where
  marinZones : ℚ × ℚ → List ((ℚ × ℚ) × List ℚ)
  getStress : ℚ → ℚ

/-- A surface geometry: a polygon with a material reference. -/
structure SurfaceGeometry where
  polygon : List (ℚ × ℚ)
  material : MaterialModel

/-- A point geometry (reinforcement bar): a coordinate, an area and a
material reference. -/
structure PointGeometry where
  point : ℚ × ℚ
  area : ℚ
  material : MaterialModel

/-- A compound geometry: surface geometries plus point geometries. -/
structure CompoundGeometry where
  geometries : List SurfaceGeometry
  point_geometries : List PointGeometry

/-- Exceptions of the embedded Python code.  `zeroDivision` is Python's
`ZeroDivisionError`.  `modelGap` marks an input outside the domain of the
rational embedding (irrational `atan2`/`sqrt`/`cos`/`sin` values, or the
external shapely clipping engine); no theorem relies on behaviour behind
a `modelGap`. -/
inductive PyErr
  | zeroDivision
  | modelGap
deriving DecidableEq

/-- Python float division: raises `ZeroDivisionError` on a zero divisor. -/
def pydiv (a b : ℚ) : Except PyErr ℚ :=
  if b = 0 then .error .zeroDivision else .ok (a / b)

/-- Modelled from the spec (§4.2): Python's `math.atan2(z, y)` restricted
to the axis `z = 0 ∧ 0 ≤ y`, where its value is exactly `0` (in
particular `atan2(0, 0) = 0`, raising nothing); elsewhere the value is
irrational and outside this model. -/
def atan2M (z y : ℚ) : Except PyErr ℚ :=
  if z = 0 ∧ 0 ≤ y then .ok 0 else .error .modelGap

/-- Modelled from the spec (§4.2): `CompoundGeometry.rotate` (defined
outside `src/`) rotates every coordinate; at angle `0` it is the
identity, and no other angle is reached inside the model's domain. -/
def rotateM (angle : ℚ) (geo : CompoundGeometry) : Except PyErr CompoundGeometry :=
  if angle = 0 then .ok geo else .error .modelGap

/-- Python's `x ** 0.5` on a rational with an exact rational square root;
irrational results are outside the model. -/
def ratSqrt (x : ℚ) : Except PyErr ℚ :=
  if 0 ≤ x ∧ Nat.sqrt x.num.toNat * Nat.sqrt x.num.toNat = x.num.toNat
      ∧ Nat.sqrt x.den * Nat.sqrt x.den = x.den then
    .ok ((Nat.sqrt x.num.toNat : ℚ) / (Nat.sqrt x.den : ℚ))
  else .error .modelGap

/-- Modelled from the spec (§1, §4.4): the external polygon
boolean-geometry engine (shapely `split_two_lines` / `orient` and the
collection of the clipped polygons into prepared parts) is declared out
of scope by the spec and lives outside `src/`; every claim settled here
is decided before this step is reached. -/
def splitCollectM (g : SurfaceGeometry) (y0 y1 : ℚ) (coeffs : List ℚ) :
    Except PyErr (List (PreparedPart ℚ)) :=
  .error .modelGap

/-- The per-zone loop body of `MarinIntegrator.prepare_input` (step 3b):
for each strain interval, compute the two clipping ordinates
`(ε₀ − strain) / κ` (Python raises `ZeroDivisionError` when `κ = 0`),
swap them if needed, then clip the polygon. -/
def processZones (g : SurfaceGeometry) (sr : ℚ × ℚ) :
    List ((ℚ × ℚ) × List ℚ) → Except PyErr (List (PreparedPart ℚ))
  | [] => .ok []
  | (lims, cs) :: rest =>
    match pydiv (sr.1 - lims.1) sr.2 with
    | .error err => .error err
    | .ok y0 =>
      match pydiv (sr.1 - lims.2) sr.2 with
      | .error err => .error err
      | .ok y1 =>
        let yy := if y0 > y1 then (y1, y0) else (y0, y1)
        match splitCollectM g yy.1 yy.2 cs with
        | .error err => .error err
        | .ok parts =>
          match processZones g sr rest with
          | .error err => .error err
          | .ok tail => .ok (parts ++ tail)

/-- The per-geometry loop of `MarinIntegrator.prepare_input` (step 3):
query the material's `__marin__` zones and process them in order. -/
def processGeoms (sr : ℚ × ℚ) :
    List SurfaceGeometry → Except PyErr (List (PreparedPart ℚ))
  | [] => .ok []
  | g :: rest =>
    match processZones g sr (g.material.marinZones sr) with
    | .error err => .error err
    | .ok parts =>
      match processGeoms sr rest with
      | .error err => .error err
      | .ok tail => .ok (parts ++ tail)

/-- The reinforcement block of `MarinIntegrator.prepare_input`: for each
point geometry, the strain is `ε₀ − κ·y`, the force is
`get_stress(strain) · area`, and the coordinates and forces are
collected into a single tag-1 prepared part. -/
def preparePoints (sr : ℚ × ℚ) (pgs : List PointGeometry) : PreparedPart ℚ :=
  (1, pgs.map fun pg => pg.point.1,
   pgs.map fun pg => pg.point.2,
   pgs.map fun pg => pg.material.getStress (sr.1 - sr.2 * pg.point.2) * pg.area)

/-- Embedding of `MarinIntegrator.prepare_input`: compute
`angle = atan2(κ_z, κ_y)`, rotate the geometry, form the rotated strain
`(ε₀, √(κ_z² + κ_y²))`, process every surface geometry, then append the
reinforcement part. -/
def prepare_input (geo : CompoundGeometry) (strain : ℚ × ℚ × ℚ) :
    Except PyErr (ℚ × List (PreparedPart ℚ)) :=
  match atan2M strain.2.2 strain.2.1 with
  | .error err => .error err
  | .ok angle =>
    match rotateM angle geo with
    | .error err => .error err
    | .ok rotated =>
      match ratSqrt (strain.2.2 ^ 2 + strain.2.1 ^ 2) with
      | .error err => .error err
      | .ok kappa =>
        match processGeoms (strain.1, kappa) rotated.geometries with
        | .error err => .error err
        | .ok surfaceParts =>
          .ok (angle,
            surfaceParts ++ [preparePoints (strain.1, kappa) rotated.point_geometries])

/-- Modelled from the spec: the pair `(cos angle, sin angle)` formed by
`MarinIntegrator.integrate`; the only angle reached within the model's
domain is `0`, where the pair is exactly `(1, 0)`. -/
def cosSinM (angle : ℚ) : Except PyErr (ℚ × ℚ) :=
  if angle = 0 then .ok (1, 0) else .error .modelGap

/-- Embedding of `MarinIntegrator.integrate_strain_response_on_geometry`:
prepare the input, then integrate. -/
def integrate_strain_response_on_geometry (geo : CompoundGeometry)
    (strain : ℚ × ℚ × ℚ) : Except PyErr (ℚ × ℚ × ℚ) :=
  match prepare_input geo strain with
  | .error err => .error err
  | .ok pi =>
    match cosSinM pi.1 with
    | .error err => .error err
    | .ok cs => .ok (integrate cs.1 cs.2 pi.2)

/-- Association lookup in the memo cache keyed by the argument
quadruple. -/
def memoFind : List ((ℕ × ℕ × ℕ × ℕ) × ℕ) → (ℕ × ℕ × ℕ × ℕ) → Option ℕ
  | [], _ => none
  | (k, v) :: rest, q => if q = k then some v else memoFind rest q

/-- One call through the `functools.lru_cache` wrapper of `_coeff`: look
the quadruple up in the cache, computing and inserting on a miss. -/
def memoStep (cache : List ((ℕ × ℕ × ℕ × ℕ) × ℕ)) (q : ℕ × ℕ × ℕ × ℕ) :
    ℕ × List ((ℕ × ℕ × ℕ × ℕ) × ℕ) :=
  match memoFind cache q with
  | some v => (v, cache)
  | none =>
    let v := _coeff q.1 q.2.1 q.2.2.1 q.2.2.2
    (v, (q, v) :: cache)

/-- A sequence of memoized `_coeff` calls, returning the answers in call
order together with the final cache. -/
def memoRun : List (ℕ × ℕ × ℕ × ℕ) → List ((ℕ × ℕ × ℕ × ℕ) × ℕ) →
    List ℕ × List ((ℕ × ℕ × ℕ × ℕ) × ℕ)
  | [], cache => ([], cache)
  | q :: qs, cache =>
    let r := memoStep cache q
    let rest := memoRun qs r.2
    (r.1 :: rest.1, rest.2)

/-- A cache is well formed when every stored answer is the pure value. -/
def coeffMemoWF (cache : List ((ℕ × ℕ × ℕ × ℕ) × ℕ)) : Prop :=
  ∀ q v, memoFind cache q = some v → v = _coeff q.1 q.2.1 q.2.2.1 q.2.2.2

/-- Embedding of `Material` from `core/base.py`: `__init__` stores
`abs(density)` and the name (defaulting to `"Material"`). -/
structure Material where
  densityStored : ℚ
  nameStored : String

/-- `Material.__init__(density, name)`. -/
def Material.init (density : ℚ) (name : Option String) : Material :=
  { densityStored := |density|, nameStored := name.getD "Material" }

/-- The `density` property of `Material`. -/
def Material.density (m : Material) : ℚ := m.densityStored

/-- The integrator implementations known to the registry. -/
inductive IntegratorKind
  | marin
deriving DecidableEq

/-- A Python runtime value relevant to the factory: either a class object
itself or an instance of a class (with an identity distinguishing
distinct instantiations). -/
inductive PyObj
  | cls (c : IntegratorKind)
  | inst (c : IntegratorKind) (id : ℕ)
deriving DecidableEq

/-- `integrator_registry = {'Marin': MarinIntegrator}` — the dict maps
the name to the class object (no parentheses in the source). -/
def integrator_registry : List (String × PyObj) :=
  [("Marin", .cls .marin)]

/-- Python `dict.get(key, default)`. -/
def dictGet (d : List (String × PyObj)) (k : String) (dflt : PyObj) : PyObj :=
  match d.lookup k with
  | some v => v
  | none => dflt

/-- Python `dict.setdefault(key, value)`: insert only if absent. -/
def dictSetdefault (d : List (String × PyObj)) (k : String) (v : PyObj) :
    List (String × PyObj) :=
  match d.lookup k with
  | some _ => d
  | none => d ++ [(k, v)]

/-- The `IntegratorFactory` state: the `instances` cache and the
registry. -/
structure IntegratorFactory where
  instances : List (String × PyObj)
  registry : List (String × PyObj)

/-- Embedding of `IntegratorFactory.__call__`:
`self.instances.setdefault(method, self.registry.get(method,
MarinIntegrator))` followed by `return self.instances.get(method)`.
Note the defaulted value is the class object `MarinIntegrator`, exactly
as in the source. -/
def factoryCall (f : IntegratorFactory) (method : String) :
    IntegratorFactory × Option PyObj :=
  let f2 : IntegratorFactory :=
    { f with instances :=
        dictSetdefault f.instances method (dictGet f.registry method (.cls .marin)) }
  (f2, f2.instances.lookup method)

/-- The module-level `integrator_factory = IntegratorFactory(integrator_registry)`. -/
def integrator_factory : IntegratorFactory :=
  { instances := [], registry := integrator_registry }

/-- A constitutive law whose stress is the constant 10 and which reports
a single polynomial zone (constant coefficient vector `[10]`) for every
rotated strain — the simplest homogeneous material of the claims. -/
def constStress10 : MaterialModel :=
  { marinZones := fun _ => [((-1, 1), [10])], getStress := fun _ => 10 }

/-- A unit-square surface of the constant material: a concrete
homogeneous section for exercising the degenerate strain plane. -/
def degenGeo : CompoundGeometry :=
  { geometries := [{ polygon := [(0, 0), (1, 0), (1, 1), (0, 1)],
                     material := constStress10 }],
    point_geometries := [] }

/-- A section consisting of a single reinforcement point at `(y, z) =
(2, 3)` with area 1 and the constant-stress-10 material. -/
def pointOnlyGeo : CompoundGeometry :=
  { geometries := [],
    point_geometries := [{ point := (2, 3), area := 1, material := constStress10 }] }

/-- The binomial coefficient of the Marin formula is invariant under the
simultaneous reflection `j ↦ m − j`, `k ↦ n − k`. -/
lemma coeff_reflect (m n j k : ℕ) (hj : j ≤ m) (hk : k ≤ n) :
    _coeff m n (m - j) (n - k) = _coeff m n j k := by
  unfold _coeff
  have e1 : m - j + (n - k) = m + n - j - k := by omega
  have e2 : m + n - (m - j) - (n - k) = j + k := by omega
  have e3 : n - (n - k) = k := by omega
  rw [e1, e2, e3]
  have c1 : (m + n - j - k).choose (m - j) = (m + n - j - k).choose (n - k) := by
    have hle : m - j ≤ m + n - j - k := by omega
    rw [← Nat.choose_symm hle]
    congr 1
    omega
  have c2 : (j + k).choose k = (j + k).choose j := by
    have hle : j ≤ j + k := Nat.le_add_right j k
    rw [← Nat.choose_symm hle]
    congr 1
    omega
  rw [c1, c2]
  ring

/-- Swapping the two endpoints of an edge negates its contribution to the
Marin sum: the double sum is symmetric under the swap while the cross term
is antisymmetric. -/
lemma edgeTerm_swap {K : Type} [Field K] (m n : ℕ) (p q : K × K) :
    edgeTerm m n q p = - edgeTerm m n p q := by
  unfold edgeTerm
  have hsum : (∑ j ∈ Finset.range (m + 1),
        (∑ k ∈ Finset.range (n + 1),
          (_coeff m n j k : K) * q.2 ^ (n - k) * p.2 ^ k) * q.1 ^ (m - j) * p.1 ^ j)
      = ∑ j ∈ Finset.range (m + 1),
        (∑ k ∈ Finset.range (n + 1),
          (_coeff m n j k : K) * p.2 ^ (n - k) * q.2 ^ k) * p.1 ^ (m - j) * q.1 ^ j := by
    rw [← Finset.sum_range_reflect
      (fun j => (∑ k ∈ Finset.range (n + 1),
        (_coeff m n j k : K) * p.2 ^ (n - k) * q.2 ^ k) * p.1 ^ (m - j) * q.1 ^ j)
      (m + 1)]
    apply Finset.sum_congr rfl
    intro j hj
    have hjm : j ≤ m := by
      have := Finset.mem_range.mp hj
      omega
    have hred : m + 1 - 1 - j = m - j := by omega
    rw [hred, Nat.sub_sub_self hjm]
    have hinner : (∑ k ∈ Finset.range (n + 1),
          (_coeff m n (m - j) k : K) * p.2 ^ (n - k) * q.2 ^ k)
        = ∑ k ∈ Finset.range (n + 1),
          (_coeff m n j k : K) * q.2 ^ (n - k) * p.2 ^ k := by
      rw [← Finset.sum_range_reflect
        (fun k => (_coeff m n (m - j) k : K) * p.2 ^ (n - k) * q.2 ^ k) (n + 1)]
      apply Finset.sum_congr rfl
      intro k hk
      have hkn : k ≤ n := by
        have := Finset.mem_range.mp hk
        omega
      have hred2 : n + 1 - 1 - k = n - k := by omega
      rw [hred2, Nat.sub_sub_self hkn, coeff_reflect m n j k hjm hkn]
      ring
    rw [hinner]
    ring
  rw [hsum]
  ring

/-- Unfolding equation of `marinSum` at a list with at least two points. -/
lemma marinSum_cons_cons {K : Type} [Field K] (m n : ℕ) (p q : K × K)
    (rest : List (K × K)) :
    marinSum m n (p :: q :: rest) = edgeTerm m n p q + marinSum m n (q :: rest) := rfl

/-- Appending one more vertex after a final vertex `p` adds exactly the
edge `p → q` to the Marin sum. -/
lemma marinSum_concat {K : Type} [Field K] (m n : ℕ) :
    ∀ (l : List (K × K)) (p q : K × K),
      marinSum m n (l ++ [p, q]) = marinSum m n (l ++ [p]) + edgeTerm m n p q := by
  intro l
  induction l with
  | nil =>
    intro p q
    simp [marinSum, marinSum_cons_cons]
  | cons x xs ih =>
    intro p q
    cases xs with
    | nil =>
      simp only [List.cons_append, List.nil_append, marinSum_cons_cons]
      simp [marinSum]
    | cons y ys =>
      have ihpq := ih p q
      simp only [List.cons_append] at ihpq ⊢
      rw [marinSum_cons_cons, marinSum_cons_cons, ihpq]
      ring

/-- Reversing the vertex list negates the Marin edge sum. -/
lemma marinSum_reverse {K : Type} [Field K] (m n : ℕ) :
    ∀ l : List (K × K), marinSum m n l.reverse = - marinSum m n l := by
  intro l
  induction l with
  | nil => simp [marinSum]
  | cons p t ih =>
    cases t with
    | nil => simp [marinSum]
    | cons q rest =>
      have hrev : (p :: q :: rest).reverse = rest.reverse ++ [q, p] := by
        rw [List.reverse_cons, List.reverse_cons, List.append_assoc]
        rfl
      rw [hrev, marinSum_concat, edgeTerm_swap]
      have hrev2 : (q :: rest).reverse = rest.reverse ++ [q] := List.reverse_cons q rest
      rw [← hrev2, ih, marinSum_cons_cons]
      ring

/-- Zipping commutes with reversal for lists of equal length. -/
lemma zip_reverse_of_length_eq {α β : Type} :
    ∀ (y : List α) (z : List β), y.length = z.length →
      y.reverse.zip z.reverse = (y.zip z).reverse := by
  intro y
  induction y with
  | nil =>
    intro z h
    simp
  | cons a y2 ih =>
    intro z h
    cases z with
    | nil => simp at h
    | cons b z2 =>
      have hlen : y2.length = z2.length := by
        simpa using h
      rw [List.reverse_cons, List.reverse_cons,
        List.zip_append (by simp [hlen]), ih z2 hlen]
      simp


/-- The Marin edge sum equals the sum of edge terms over the zip of the
list with its tail. -/
lemma marinSum_eq_zip_tail {K : Type} [Field K] (m n : ℕ) :
    ∀ l : List (K × K),
      marinSum m n l = ((l.zip l.tail).map fun pq => edgeTerm m n pq.1 pq.2).sum := by
  intro l
  induction l with
  | nil => rfl
  | cons p t ih =>
    cases t with
    | nil => rfl
    | cons q rest =>
      rw [marinSum_cons_cons]
      simp only [List.tail_cons, List.zip_cons_cons, List.map_cons, List.sum_cons]
      rw [ih]
      simp only [List.tail_cons]

/-- A list with at most one point produces a zero Marin edge sum. -/
lemma marinSum_short {K : Type} [Field K] (m n : ℕ) (l : List (K × K))
    (h : l.length ≤ 1) : marinSum m n l = 0 := by
  cases l with
  | nil => rfl
  | cons p t =>
    cases t with
    | nil => rfl
    | cons q rest => simp at h

/-- Explicitly closing the ring makes the Marin edge sum equal to the
wrapped edge sum of the open ring. -/
lemma marinSum_closed_eq_wrap {K : Type} [Field K] (m n : ℕ) (P : K × K)
    (L : List (K × K)) :
    marinSum m n ((P :: L) ++ [P])
      = ((wrapPairs (P :: L)).map fun pq => edgeTerm m n pq.1 pq.2).sum := by
  rw [marinSum_eq_zip_tail]
  have h1 : ((P :: L) ++ [P]).tail = L ++ [P] := rfl
  have hz : ((P :: L) ++ [P]).zip (((P :: L) ++ [P]).tail)
      = (P :: L).zip (L ++ [P]) := by
    rw [h1]
    have h2 := @List.zip_append _ _ (P :: L) [P] (L ++ [P]) ([] : List (K × K))
      (by simp)
    simpa using h2
  rw [hz]
  rfl

/-- `atan2(0, 0)` returns `0` in Python, raising nothing. -/
lemma atan2M_zero : atan2M 0 0 = .ok 0 := by
  simp [atan2M]

/-- `0 ** 0.5` is exactly `0`. -/
lemma ratSqrt_zero : ratSqrt 0 = .ok 0 := by
  simp [ratSqrt]

/-- With zero rotated curvature, any nonempty zone list makes the zone
loop divide by zero. -/
lemma processZones_zeroDiv (g : SurfaceGeometry) (e : ℚ)
    (zs : List ((ℚ × ℚ) × List ℚ)) (h : zs ≠ []) :
    processZones g (e, 0) zs = .error .zeroDivision := by
  cases zs with
  | nil => exact absurd rfl h
  | cons z rest =>
    obtain ⟨lims, cs⟩ := z
    simp [processZones, pydiv]

/-- With zero rotated curvature, the geometry loop raises
`ZeroDivisionError` as soon as any surface geometry reports at least one
stress zone. -/
lemma processGeoms_zeroDiv (e : ℚ) :
    ∀ gs : List SurfaceGeometry,
      (∃ g ∈ gs, g.material.marinZones (e, 0) ≠ []) →
      processGeoms (e, 0) gs = .error .zeroDivision := by
  intro gs
  induction gs with
  | nil =>
    intro h
    simp at h
  | cons g rest ih =>
    intro h
    by_cases hz : g.material.marinZones (e, 0) = []
    · have hrest : ∃ g2 ∈ rest, g2.material.marinZones (e, 0) ≠ [] := by
        rcases h with ⟨g2, hg2, hne⟩
        rcases List.mem_cons.mp hg2 with heq | hmem
        · subst heq
          exact absurd hz hne
        · exact ⟨g2, hmem, hne⟩
      simp [processGeoms, hz, processZones, ih hrest]
    · simp [processGeoms, processZones_zeroDiv g e _ hz]

/-- A memoized call on a well-formed cache returns the pure value and
preserves well-formedness. -/
lemma memoStep_eval (cache : List ((ℕ × ℕ × ℕ × ℕ) × ℕ)) (q : ℕ × ℕ × ℕ × ℕ)
    (h : coeffMemoWF cache) :
    (memoStep cache q).1 = _coeff q.1 q.2.1 q.2.2.1 q.2.2.2
    ∧ coeffMemoWF (memoStep cache q).2 := by
  unfold memoStep
  cases hl : memoFind cache q with
  | some v =>
    simp only [hl]
    exact ⟨h q v hl, h⟩
  | none =>
    simp only [hl]
    refine ⟨by simp, ?_⟩
    intro q2 v2 hlk
    unfold memoFind at hlk
    by_cases hq : q2 = q
    · rw [if_pos hq] at hlk
      rw [hq]
      exact (Option.some.inj hlk).symm
    · rw [if_neg hq] at hlk
      exact h q2 v2 hlk

/-- Every answer of a memoized call sequence on a well-formed cache is
the pure `_coeff` value, independently of cache contents and call
order. -/
lemma memoRun_eval :
    ∀ (qs : List (ℕ × ℕ × ℕ × ℕ)) (cache : List ((ℕ × ℕ × ℕ × ℕ) × ℕ)),
      coeffMemoWF cache →
      (memoRun qs cache).1 = qs.map fun q => _coeff q.1 q.2.1 q.2.2.1 q.2.2.2 := by
  intro qs
  induction qs with
  | nil =>
    intro cache h
    rfl
  | cons q rest ih =>
    intro cache h
    have hs := memoStep_eval cache q h
    simp only [memoRun, List.map_cons, hs.1, ih _ hs.2]

/-- C4: for the unit square with vertices (0,0),(1,0),(1,1),(0,1) listed
counter-clockwise and the first vertex not repeated, `marin_integration`
returns exactly 1 for order (0,0) (the area), 1/2 for (1,0) and 1/2 for
(0,1) (the centroid moments). -/
theorem marin_unit_square_moments :
    marin_integration ([0, 1, 1, 0] : List ℚ) [0, 0, 1, 1] 0 0 = 1
    ∧ marin_integration ([0, 1, 1, 0] : List ℚ) [0, 0, 1, 1] 1 0 = 1 / 2
    ∧ marin_integration ([0, 1, 1, 0] : List ℚ) [0, 0, 1, 1] 0 1 = 1 / 2 := by
  refine ⟨?_, ?_, ?_⟩ <;>
    norm_num [marin_integration, marinSum, edgeTerm, _coeff, Finset.sum_range_succ]

/-- C5: reversing the vertex order of any polygon negates every computed
moment: `marin_integration(reverse y, reverse z, m, n) =
−marin_integration(y, z, m, n)`. -/
theorem marin_reverse_negates (y z : List ℚ) (m n : ℕ)
    (h : y.length = z.length) :
    marin_integration y.reverse z.reverse m n = - marin_integration y z m n := by
  unfold marin_integration
  rw [zip_reverse_of_length_eq y z h, marinSum_reverse, neg_div]

/-- C5 witness: the sign flip evaluated on the triangle
(1,1),(2,1),(1,2). -/
theorem marin_reverse_negates_witness :
    ([1, 2, 1] : List ℚ).length = ([1, 1, 2] : List ℚ).length
    ∧ marin_integration ([1, 2, 1] : List ℚ).reverse ([1, 1, 2] : List ℚ).reverse 0 0
      = - marin_integration ([1, 2, 1] : List ℚ) [1, 1, 2] 0 0 :=
  ⟨rfl, marin_reverse_negates [1, 2, 1] [1, 1, 2] 0 0 rfl⟩

/-- C2 counterexample: on the triangle (1,1),(2,1),(1,2) — a closed
polygon whose first vertex is not repeated as the last — the source's
`marin_integration` returns 1, while the Marin edge-summation formula
including the wrapping edge (the claim's formula) gives the true moment
1/2: the loop `for i in range(len(y) - 1)` never adds the wrapping
edge. -/
theorem marin_wrap_counterexample :
    marin_integration ([1, 2, 1] : List ℚ) [1, 1, 2] 0 0 = 1
    ∧ marinFormulaWrap ([1, 2, 1] : List ℚ) [1, 1, 2] 0 0 = 1 / 2
    ∧ marin_integration ([1, 2, 1] : List ℚ) [1, 1, 2] 0 0
        ≠ marinFormulaWrap ([1, 2, 1] : List ℚ) [1, 1, 2] 0 0 := by
  have h1 : marin_integration ([1, 2, 1] : List ℚ) [1, 1, 2] 0 0 = 1 := by
    norm_num [marin_integration, marinSum, edgeTerm, _coeff, Finset.sum_range_succ]
  have h2 : marinFormulaWrap ([1, 2, 1] : List ℚ) [1, 1, 2] 0 0 = 1 / 2 := by
    norm_num [marinFormulaWrap, wrapPairs, edgeTerm, _coeff, Finset.sum_range_succ]
  refine ⟨h1, h2, ?_⟩
  rw [h1, h2]
  norm_num

/-- C2 amended: `marin_integration` iterates only the consecutive vertex
pairs (i, i+1) for i ∈ [0, len−2] and adds no wrapping edge; it equals
the claimed wrapped Marin formula exactly when the ring is passed
explicitly closed, i.e. with the first vertex repeated as the last. -/
theorem marin_closed_ring_eq_wrap (a b : ℚ) (y z : List ℚ) (m n : ℕ)
    (h : y.length = z.length) :
    marin_integration ((a :: y) ++ [a]) ((b :: z) ++ [b]) m n
      = marinFormulaWrap (a :: y) (b :: z) m n := by
  unfold marin_integration marinFormulaWrap
  have hz : ((a :: y) ++ [a]).zip ((b :: z) ++ [b])
      = ((a, b) :: y.zip z) ++ [(a, b)] := by
    rw [List.zip_append (by simp [h])]
    simp
  rw [hz, marinSum_closed_eq_wrap, List.zip_cons_cons]

/-- C2 amended witness: the closed triangle ring
(1,1),(2,1),(1,2),(1,1) integrates to the wrapped formula of the open
ring (1,1),(2,1),(1,2). -/
theorem marin_closed_ring_eq_wrap_witness :
    ([2, 1] : List ℚ).length = ([1, 2] : List ℚ).length
    ∧ marin_integration (((1 : ℚ) :: [2, 1]) ++ [1]) (((1 : ℚ) :: [1, 2]) ++ [1]) 0 0
      = marinFormulaWrap ((1 : ℚ) :: [2, 1]) ((1 : ℚ) :: [1, 2]) 0 0 :=
  ⟨rfl, marin_closed_ring_eq_wrap 1 1 [2, 1] [1, 2] 0 0 rfl⟩

/-- C3 counterexample: the two-vertex list pair y = [1, 0], z = [0, 1]
(fewer than 3 vertices) yields 1/2 at order (0,0), not 0. -/
theorem marin_two_vertices_nonzero :
    marin_integration ([1, 0] : List ℚ) [0, 1] 0 0 = 1 / 2
    ∧ marin_integration ([1, 0] : List ℚ) [0, 1] 0 0 ≠ 0 := by
  have h1 : marin_integration ([1, 0] : List ℚ) [0, 1] 0 0 = 1 / 2 := by
    norm_num [marin_integration, marinSum, edgeTerm, _coeff, Finset.sum_range_succ]
  refine ⟨h1, ?_⟩
  rw [h1]
  norm_num

/-- C3 amended: lists with fewer than two vertices produce no edge at
all and return 0 for every order, and a degenerate closed ring that goes
out and back along one edge (a → b → a) returns 0 for every order; an
open two-vertex list instead returns the half edge cross term, which is
nonzero in general. -/
theorem marin_degenerate_lists_zero (y z : List ℚ) (m n : ℕ)
    (h : y.length ≤ 1) :
    marin_integration y z m n = 0
    ∧ ∀ y1 y2 z1 z2 : ℚ,
        marin_integration [y1, y2, y1] [z1, z2, z1] m n = 0 := by
  constructor
  · unfold marin_integration
    have hlen : (y.zip z).length ≤ 1 := by
      rw [List.length_zip]
      omega
    rw [marinSum_short m n _ hlen, zero_div]
  · intro y1 y2 z1 z2
    unfold marin_integration
    have hnum : marinSum m n [(y1, z1), (y2, z2), (y1, z1)] = 0 := by
      rw [marinSum_cons_cons]
      show edgeTerm m n (y1, z1) (y2, z2)
        + (edgeTerm m n (y2, z2) (y1, z1) + 0) = 0
      rw [edgeTerm_swap]
      ring
    rw [show (([y1, y2, y1] : List ℚ).zip [z1, z2, z1])
      = [(y1, z1), (y2, z2), (y1, z1)] from rfl, hnum, zero_div]

/-- C3 amended witness: the one-vertex pair ([5], [7]) at order (2,3). -/
theorem marin_degenerate_lists_zero_witness :
    ([5] : List ℚ).length ≤ 1
    ∧ (marin_integration ([5] : List ℚ) [7] 2 3 = 0
      ∧ ∀ y1 y2 z1 z2 : ℚ,
          marin_integration [y1, y2, y1] [z1, z2, z1] 2 3 = 0) :=
  ⟨by simp, marin_degenerate_lists_zero [5] [7] 2 3 (by simp)⟩

/-- C1: the claim fails on the code. For a strain plane with zero total
curvature, `prepare_input` computes `strain_rotated[1] = 0` and then
evaluates `(strain_rotated[0] - strains[p][0]) / strain_rotated[1]`,
raising `ZeroDivisionError` as soon as any surface material reports a
stress zone — there is no uniform-strain single-zone path in the
source. -/
theorem degenerate_strain_plane_zero_division (e : ℚ) (geo : CompoundGeometry)
    (h : ∃ g ∈ geo.geometries, g.material.marinZones (e, 0) ≠ []) :
    integrate_strain_response_on_geometry geo (e, 0, 0) = .error .zeroDivision := by
  have hprep : prepare_input geo (e, 0, 0) = .error .zeroDivision := by
    unfold prepare_input
    simp only [show ((e, 0, 0) : ℚ × ℚ × ℚ).2.2 = 0 from rfl,
      show ((e, 0, 0) : ℚ × ℚ × ℚ).2.1 = 0 from rfl,
      show ((e, 0, 0) : ℚ × ℚ × ℚ).1 = e from rfl,
      atan2M_zero,
      show rotateM 0 geo = Except.ok geo from by simp [rotateM],
      show ((0 : ℚ) ^ 2 + (0 : ℚ) ^ 2) = 0 from by norm_num,
      ratSqrt_zero,
      processGeoms_zeroDiv e geo.geometries h]
  unfold integrate_strain_response_on_geometry
  rw [hprep]

/-- C1 witness: the homogeneous unit-square section with the constant
material, under the degenerate strain plane (1/1000, 0, 0). -/
theorem degenerate_strain_plane_zero_division_witness :
    (∃ g ∈ degenGeo.geometries, g.material.marinZones (1 / 1000, 0) ≠ [])
    ∧ integrate_strain_response_on_geometry degenGeo (1 / 1000, 0, 0)
      = .error .zeroDivision := by
  have hex : ∃ g ∈ degenGeo.geometries, g.material.marinZones (1 / 1000, 0) ≠ [] := by
    refine ⟨{ polygon := [(0, 0), (1, 0), (1, 1), (0, 1)], material := constStress10 },
      ?_, ?_⟩
    · simp [degenGeo]
    · simp [constStress10]
  exact ⟨hex, degenerate_strain_plane_zero_division (1 / 1000) degenGeo hex⟩

/-- C6: for every rotation angle and every accumulated pair (Mx, My),
`integrate` maps the moments back to the original frame through the
matrix `[[cos, sin], [-sin, cos]]` — `Mx' = cos·Mx + sin·My`,
`My' = −sin·Mx + cos·My` — and returns the axial force N unchanged. -/
theorem integrate_unrotates_moments (θ : ℝ) (parts : List (PreparedPart ℝ)) :
    integrate (Real.cos θ) (Real.sin θ) parts
      = ((accumulate parts).1,
         Real.cos θ * (accumulate parts).2.1 + Real.sin θ * (accumulate parts).2.2,
         -Real.sin θ * (accumulate parts).2.1 + Real.cos θ * (accumulate parts).2.2) := by
  unfold integrate
  simp [Matrix.mulVec, Matrix.dotProduct, Fin.sum_univ_two]

/-- C7: a point (reinforcement) zone with rotated coordinates (y, z) and
force F contributes exactly `N += F`, `Mx += F·z`, `My += F·y`; the
prepared force is `get_stress(ε₀ − κ·z)·area`; and at zero rotation
angle a single point at (y, z) = (2, 3) with area 1 and a constant
stress law of 10 produces exactly (N, Mx, My) = (10, 30, 20). -/
theorem point_zone_contribution :
    (∀ N Mx My yp zp F : ℚ,
      addPart (N, Mx, My) (1, [yp], [zp], [F]) = (N + F, Mx + F * zp, My + F * yp))
    ∧ (∀ (e k : ℚ) (pg : PointGeometry),
      preparePoints (e, k) [pg]
        = (1, [pg.point.1], [pg.point.2],
           [pg.material.getStress (e - k * pg.point.2) * pg.area]))
    ∧ (∀ e : ℚ, integrate_strain_response_on_geometry pointOnlyGeo (e, 0, 0)
        = .ok (10, 30, 20)) := by
  refine ⟨?_, ?_, ?_⟩
  · intro N Mx My yp zp F
    simp [addPart]
  · intro e k pg
    simp [preparePoints]
  · intro e
    unfold integrate_strain_response_on_geometry prepare_input
    simp only [show ((e, 0, 0) : ℚ × ℚ × ℚ).2.2 = 0 from rfl,
      show ((e, 0, 0) : ℚ × ℚ × ℚ).2.1 = 0 from rfl,
      show ((e, 0, 0) : ℚ × ℚ × ℚ).1 = e from rfl,
      atan2M_zero,
      show rotateM 0 pointOnlyGeo = Except.ok pointOnlyGeo from by simp [rotateM],
      show ((0 : ℚ) ^ 2 + (0 : ℚ) ^ 2) = 0 from by norm_num,
      ratSqrt_zero,
      show processGeoms (e, (0 : ℚ)) pointOnlyGeo.geometries = Except.ok [] from rfl,
      show cosSinM 0 = Except.ok (1, 0) from by simp [cosSinM]]
    simp only [pointOnlyGeo, preparePoints, constStress10, List.map_cons, List.map_nil,
      List.nil_append]
    norm_num [integrate, accumulate, addPart, Matrix.mulVec, Matrix.dotProduct,
      Fin.sum_univ_two]

/-- C8: evaluation of `IntegratorFactory.__call__` at the failing input.
The lookup caches one entry per name and silently falls back to the
default Marin strategy for unknown names, and repeated lookups return
the same cached object — but that object is the class object
`MarinIntegrator` itself, never an instance: the source stores
`self.registry.get(method, MarinIntegrator)` without calling it, against
its own `-> SectionIntegrator` return type hint and docstring. -/
theorem factory_returns_uninstantiated :
    (factoryCall integrator_factory "Marin").2
        = some (PyObj.cls IntegratorKind.marin)
    ∧ (factoryCall integrator_factory "NoSuchIntegrator").2
        = some (PyObj.cls IntegratorKind.marin)
    ∧ (factoryCall (factoryCall integrator_factory "Marin").1 "Marin").2
        = (factoryCall integrator_factory "Marin").2
    ∧ ∀ (c : IntegratorKind) (i : ℕ),
        (factoryCall integrator_factory "Marin").2 ≠ some (PyObj.inst c i) := by
  have h1 : (factoryCall integrator_factory "Marin").2
      = some (PyObj.cls IntegratorKind.marin) := by rfl
  refine ⟨h1, by rfl, by rfl, ?_⟩
  intro c i
  rw [h1]
  simp

/-- C9: the binomial helper returns exactly C(j+k, j)·C(m+n−j−k, n−k),
and through the memo cache every call with the quadruple (m, n, j, k)
returns exactly that value, regardless of which calls came before. -/
theorem coeff_memo_consistent (m n j k : ℕ) (hj : j ≤ m) (hk : k ≤ n) :
    _coeff m n j k = Nat.choose (j + k) j * Nat.choose (m + n - j - k) (n - k)
    ∧ ∀ qs : List (ℕ × ℕ × ℕ × ℕ),
        (memoRun (qs ++ [(m, n, j, k)]) []).1.getLast?
          = some (Nat.choose (j + k) j * Nat.choose (m + n - j - k) (n - k)) := by
  refine ⟨rfl, ?_⟩
  intro qs
  have hwf : coeffMemoWF [] := by
    intro q v hv
    simp [memoFind] at hv
  rw [memoRun_eval _ _ hwf, List.map_append]
  simp [List.getLast?_concat, _coeff]

/-- C9 witness: the quadruple (2, 2, 1, 1) after an arbitrary empty
prefix of calls. -/
theorem coeff_memo_consistent_witness :
    ((1 : ℕ) ≤ 2 ∧ (1 : ℕ) ≤ 2)
    ∧ (_coeff 2 2 1 1 = Nat.choose (1 + 1) 1 * Nat.choose (2 + 2 - 1 - 1) (2 - 1)
      ∧ ∀ qs : List (ℕ × ℕ × ℕ × ℕ),
          (memoRun (qs ++ [(2, 2, 1, 1)]) []).1.getLast?
            = some (Nat.choose (1 + 1) 1 * Nat.choose (2 + 2 - 1 - 1) (2 - 1))) :=
  ⟨⟨by decide, by decide⟩, coeff_memo_consistent 2 2 1 1 (by decide) (by decide)⟩

/-- C10: constructing a Material always succeeds, storing `abs(density)`:
the density property returns |d| — non-negative, with a negative input
silently made non-negative rather than rejected. -/
theorem material_density_abs (d : ℚ) (name : Option String) :
    (Material.init d name).density = |d|
    ∧ 0 ≤ (Material.init d name).density
    ∧ (Material.init (-d) name).density = (Material.init d name).density := by
  refine ⟨rfl, ?_, ?_⟩
  · exact abs_nonneg d
  · show |(-d)| = |d|
    exact abs_neg d
